import Mathlib

/-!
Shallow embedding of the `phase-change` file-conversion crate:
format taxonomy, converter registry, BFS conversion-path search and the
multi-hop conversion orchestrator, together with proofs of the spec's
claims about them.
-/

set_option maxHeartbeats 1000000

/-- Mirrors `ImageFileType` in `src/converters/image/mod.rs`. -/
inductive ImageFileType
  | PNG
  | JPEG
deriving DecidableEq

/-- Mirrors `AudioFileType` (module referenced from `lib.rs`; variants `MP3`, `WAV`
as matched in `get_extension_for_type`). -/
inductive AudioFileType
  | MP3
  | WAV
deriving DecidableEq

/-- Mirrors `FileType` in `lib.rs`. -/
inductive FileType
  | Unknown
  | Image (t : ImageFileType)
  | Audio (t : AudioFileType)
deriving DecidableEq

/-- All five inhabitants of `FileType`. -/
def allFileTypes : List FileType :=
  [FileType.Unknown, FileType.Image ImageFileType.PNG, FileType.Image ImageFileType.JPEG,
   FileType.Audio AudioFileType.MP3, FileType.Audio AudioFileType.WAV]

/-- Rendering of `FileType` by the derived `Debug` impl, as used in `anyhow!` messages. -/
def debugFileType : FileType → String
  | FileType.Unknown => "Unknown"
  | FileType.Image ImageFileType.PNG => "Image(PNG)"
  | FileType.Image ImageFileType.JPEG => "Image(JPEG)"
  | FileType.Audio AudioFileType.MP3 => "Audio(MP3)"
  | FileType.Audio AudioFileType.WAV => "Audio(WAV)"

/-- Mirrors `get_extension_for_type` in `lib.rs`. -/
def get_extension_for_type : FileType → String
  | FileType.Unknown => "unknown"
  | FileType.Image ImageFileType.PNG => "png"
  | FileType.Image ImageFileType.JPEG => "jpg"
  | FileType.Audio AudioFileType.MP3 => "mp3"
  | FileType.Audio AudioFileType.WAV => "wav"

/-- Index of the last `.` in a character list, if any. -/
def findLastDot : List Char → Option Nat
  | [] => none
  | c :: cs =>
    match findLastDot cs with
    | some i => some (i + 1)
    | none => if c = '.' then some 0 else none

/-- Position of the extension dot of a file name, following Rust `Path` semantics:
the last `.` counts only when it is not the leading character. -/
def extSplitPos (f : String) : Option Nat :=
  match findLastDot f.toList with
  | some i => if 1 ≤ i then some i else none
  | none => none

/-- Replace (or attach) the extension of a file-name string, mirroring Rust
`PathBuf::set_extension` on the file-name component. -/
def setExtensionName (f ext : String) : String :=
  let stem :=
    match extSplitPos f with
    | some i => (f.toList.take i).asString
    | none => f
  if ext = "" then stem else stem ++ "." ++ ext

/-- Model of a filesystem path: parent components plus a file-name component.
Mirrors the `PathBuf` operations used by `lib.rs`. -/
structure FsPath where
  dir : List String
  name : String
deriving DecidableEq

/-- Mirrors `PathBuf::set_extension`. -/
def FsPath.set_extension (p : FsPath) (ext : String) : FsPath :=
  { p with name := setExtensionName p.name ext }

/-- Mirrors `PathBuf::file_name` (as the string used after `to_string_lossy`). -/
def FsPath.file_name (p : FsPath) : String := p.name

/-- Mirrors `PathBuf::set_file_name`. -/
def FsPath.set_file_name (p : FsPath) (s : String) : FsPath := { p with name := s }

/-- A converter capability: mirrors the `Converter` trait in `lib.rs`. The world it
acts on is an abstract state `σ` threaded through `convert`. -/
structure Converter (σ : Type) where
  run : FsPath → FsPath → σ → Except String Unit × σ
  from_type : FileType
  to_type : FileType

/-- Mirrors `ConverterRegistry.converters : HashMap<(FileType, FileType), Box<dyn Converter>>`
as an association list with pairwise-distinct keys. -/
abbrev ConverterRegistry (σ : Type) := List ((FileType × FileType) × Converter σ)

/-- First-match association lookup, mirroring `HashMap::get`. -/
def lookupConv {σ : Type} : ConverterRegistry σ → FileType × FileType → Option (Converter σ)
  | [], _ => none
  | (k, c) :: rest, key => if k = key then some c else lookupConv rest key

/-- Mirrors `HashMap::insert`: replace the entry of an existing key, else add the entry. -/
def insertKey {σ : Type} : ConverterRegistry σ → FileType × FileType → Converter σ → ConverterRegistry σ
  | [], key, c => [(key, c)]
  | (k, c') :: rest, key, c =>
    if k = key then (key, c) :: rest else (k, c') :: insertKey rest key c

/-- Mirrors `ConverterRegistry::register`. -/
def ConverterRegistry.register {σ : Type} (r : ConverterRegistry σ) (c : Converter σ) :
    ConverterRegistry σ :=
  insertKey r (c.from_type, c.to_type) c

/-- Mirrors `ConverterRegistry::can_convert`. -/
def ConverterRegistry.can_convert {σ : Type} (r : ConverterRegistry σ) (f t : FileType) : Bool :=
  (lookupConv r (f, t)).isSome

/-- Mirrors `ConverterRegistry::convert`. -/
def ConverterRegistry.convert {σ : Type} (r : ConverterRegistry σ) (f t : FileType)
    (input output : FsPath) (s : σ) : Except String Unit × σ :=
  match lookupConv r (f, t) with
  | some c => c.run input output s
  | none =>
    (Except.error ("No converter available from " ++ debugFileType f ++ " to "
        ++ debugFileType t), s)

/-- First-match parent lookup, mirroring `HashMap::get` on the BFS parent map. -/
def lookupParent : List (FileType × FileType) → FileType → Option FileType
  | [], _ => none
  | (k, v) :: rest, n => if k = n then some v else lookupParent rest n

/-- Mirrors the path-reconstruction loop of `find_conversion_path`: repeatedly push the
parent of the current node, then reverse. The fuel bounds the walk; the BFS parent map
is acyclic, so `parent.length` steps always suffice. -/
def reconstruct (parent : List (FileType × FileType)) : Nat → List FileType → FileType → List FileType
  | 0, acc, _ => acc.reverse
  | fuel + 1, acc, node =>
    match lookupParent parent node with
    | none => acc.reverse
    | some p => reconstruct parent fuel (acc ++ [p]) p

/-- BFS working state: queue, visited list, parent map. -/
abbrev BfsState := List FileType × List FileType × List (FileType × FileType)

/-- One edge considered during the expansion of `current`, mirroring the body of
`for ((from_type, to_type), _) in &self.converters` in `find_conversion_path`. -/
def expandStep (current : FileType) (st : BfsState) (e : FileType × FileType) : BfsState :=
  if e.1 = current ∧ ¬ e.2 ∈ st.2.1 then
    (st.1 ++ [e.2], st.2.1 ++ [e.2], st.2.2 ++ [(e.2, current)])
  else st

/-- Expansion of `current` over every registered edge. -/
def expand (edges : List (FileType × FileType)) (current : FileType) (st : BfsState) : BfsState :=
  edges.foldl (expandStep current) st

/-- Fuel for the BFS main loop. `FileType` has five inhabitants and every loop
iteration pops a queue entry, each of which was inserted into the visited set
exactly once, so six iterations always suffice. -/
def bfsFuel : Nat := 6

/-- The BFS main loop of `find_conversion_path`. -/
def bfs (edges : List (FileType × FileType)) (t : FileType) :
    Nat → List FileType → List FileType → List (FileType × FileType) → Option (List FileType)
  | _, [], _, _ => none
  | 0, _ :: _, _, _ => none
  | fuel + 1, current :: rest, visited, parent =>
    if current = t then some (reconstruct parent parent.length [current] current)
    else
      match expand edges current (rest, visited, parent) with
      | (q, v, p) => bfs edges t fuel q v p

/-- Mirrors `ConverterRegistry::find_conversion_path`. -/
def ConverterRegistry.find_conversion_path {σ : Type} (r : ConverterRegistry σ)
    (f t : FileType) : Option (List FileType) :=
  if f = t then some [f]
  else bfs (r.map Prod.fst) t bfsFuel [f] [f] []

/-- Mirrors `FileConvertBuilder` in `lib.rs` (`from` and `to` are Lean keywords,
hence the trailing underscores). -/
structure FileConvertBuilder (σ : Type) where
  from_ : FileType × FsPath
  to_ : FileType × Option FsPath
  registry : Option (ConverterRegistry σ)
  custom_converters : List (Converter σ)

/-- Output-path resolution of `FileConvertBuilder::convert`: the explicit target path
if one was supplied, else the source path with the target's canonical extension. -/
def resolveOutputPath {σ : Type} (b : FileConvertBuilder σ) : FsPath :=
  match b.to_.2 with
  | some p => p
  | none => (b.from_.2).set_extension (get_extension_for_type b.to_.1)

/-- Temporary-artifact path of a non-final hop: extension replaced with the
intermediate target's canonical extension, then the file name gets a "temp_" mark. -/
def tempPathFor (current_input : FsPath) (t : FileType) : FsPath :=
  let temp := current_input.set_extension (get_extension_for_type t)
  temp.set_file_name ("temp_" ++ temp.file_name)

/-- Output path of one hop: the resolved output path when the hop's target is the
request's target type, else a temporary path derived from the hop's input. -/
def hopOutput (finalType : FileType) (output_path current_input : FsPath) (t : FileType) : FsPath :=
  if t = finalType then output_path else tempPathFor current_input t

/-- Mirrors the `for window in path.windows(2)` loop of `FileConvertBuilder::convert`:
each adjacent pair of the path is executed in order, the first failure aborts. -/
def runHops {σ : Type} (r : ConverterRegistry σ) (finalType : FileType) (output_path : FsPath) :
    List FileType → FsPath → σ → Except String Unit × σ
  | a :: b :: rest, current_input, s =>
    let temp_output := hopOutput finalType output_path current_input b
    match ConverterRegistry.convert r a b current_input temp_output s with
    | (Except.ok _, s1) => runHops r finalType output_path (b :: rest) temp_output s1
    | (Except.error e, s1) => (Except.error e, s1)
  | _, _, s => (Except.ok (), s)

/-- Mirrors `FileConvertBuilder::convert`. -/
def FileConvertBuilder.convert {σ : Type} (b : FileConvertBuilder σ) (s : σ) :
    Except String Unit × σ :=
  match b.registry with
  | none => (Except.error "No converter registry available", s)
  | some r0 =>
    let registry := b.custom_converters.foldl ConverterRegistry.register r0
    if b.from_.1 = FileType.Unknown then (Except.error "Source file type not specified", s)
    else if b.to_.1 = FileType.Unknown then (Except.error "Target file type not specified", s)
    else
      let output_path := resolveOutputPath b
      if ConverterRegistry.can_convert registry b.from_.1 b.to_.1 then
        ConverterRegistry.convert registry b.from_.1 b.to_.1 b.from_.2 output_path s
      else
        match ConverterRegistry.find_conversion_path registry b.from_.1 b.to_.1 with
        | some path => runHops registry b.to_.1 output_path path b.from_.2 s
        | none =>
          (Except.error ("No conversion path available from " ++ debugFileType b.from_.1
              ++ " to " ++ debugFileType b.to_.1), s)

/-- File contents as a byte list. -/
abbrev Bytes := List Nat

/-- Association-list model of the filesystem touched by the converters. -/
abbrev FileSystem := List (FsPath × Bytes)

/-- Read the contents at a path. -/
def FileSystem.read : FileSystem → FsPath → Option Bytes
  | [], _ => none
  | (q, b) :: rest, p => if q = p then some b else FileSystem.read rest p

/-- Write contents at a path (create or overwrite). -/
def FileSystem.write : FileSystem → FsPath → Bytes → FileSystem
  | [], p, b => [(p, b)]
  | (q, c) :: rest, p, b =>
    if q = p then (p, b) :: rest else (q, c) :: FileSystem.write rest p b

/-- External image codec collaborator used by `PngToJpeg` (the `image` crate):
decoding may fail, re-encoding is a pure function. -/
structure ImageCodec (Img Rgb : Type) where
  decode : Bytes → Option Img
  to_rgb8 : Img → Rgb
  encode_jpeg : Rgb → Bytes

/-- Mirrors `PngToJpeg::convert` in `src/converters/image/png.rs`: open and decode the
input, create the output file, write the JPEG encoding into it, then `fs::copy` the
input over the output. -/
def pngToJpegConvert {Img Rgb : Type} (codec : ImageCodec Img Rgb)
    (input_path output_path : FsPath) (fs : FileSystem) : Except String Unit × FileSystem :=
  match FileSystem.read fs input_path with
  | none => (Except.error "failed to open image", fs)
  | some bytes =>
    match codec.decode bytes with
    | none => (Except.error "failed to decode image", fs)
    | some img =>
      match FileSystem.read (FileSystem.write (FileSystem.write fs output_path [])
          output_path (codec.encode_jpeg (codec.to_rgb8 img))) input_path with
      | none => (Except.error "failed to copy file",
          FileSystem.write (FileSystem.write fs output_path [])
            output_path (codec.encode_jpeg (codec.to_rgb8 img)))
      | some src => (Except.ok (),
          FileSystem.write (FileSystem.write (FileSystem.write fs output_path [])
            output_path (codec.encode_jpeg (codec.to_rgb8 img))) output_path src)

/-- The built-in `PngToJpeg` capability over the modelled filesystem. -/
def pngToJpeg {Img Rgb : Type} (codec : ImageCodec Img Rgb) : Converter FileSystem :=
  { run := pngToJpegConvert codec
    from_type := FileType.Image ImageFileType.PNG
    to_type := FileType.Image ImageFileType.JPEG }

/-- Mirrors `ConverterRegistry::new`: a fresh registry pre-populated with `PngToJpeg`. -/
def ConverterRegistry.new {Img Rgb : Type} (codec : ImageCodec Img Rgb) :
    ConverterRegistry FileSystem :=
  ConverterRegistry.register [] (pngToJpeg codec)

/-- One hop of a multi-step execution: source and target type, input and output path. -/
structure Hop where
  src : FileType
  tgt : FileType
  input : FsPath
  output : FsPath
deriving DecidableEq

/-- The hop sequence the multi-hop loop derives from a conversion path: each adjacent
pair becomes a hop whose output feeds the next hop's input. -/
def hopList (finalType : FileType) (output_path : FsPath) : List FileType → FsPath → List Hop
  | a :: b :: rest, current_input =>
    let out := hopOutput finalType output_path current_input b
    ⟨a, b, current_input, out⟩ :: hopList finalType output_path (b :: rest) out
  | _, _ => []

/-- Sequential execution of a hop list through the registry, first failure aborts. -/
def execHops {σ : Type} (r : ConverterRegistry σ) : List Hop → σ → Except String Unit × σ
  | [], s => (Except.ok (), s)
  | h :: rest, s =>
    match ConverterRegistry.convert r h.src h.tgt h.input h.output s with
    | (Except.ok _, s1) => execHops r rest s1
    | (Except.error e, s1) => (Except.error e, s1)

/-- Paths through the directed graph of registered edges: `IsPath edges a p b` states
that `p` leads from `a` to `b` with every consecutive pair a registered edge. -/
inductive IsPath (edges : List (FileType × FileType)) : FileType → List FileType → FileType → Prop
  | single (a : FileType) : IsPath edges a [a] a
  | cons {a b c : FileType} {p : List FileType} :
      (a, b) ∈ edges → IsPath edges b p c → IsPath edges a (a :: p) c

/-- The chain of parent links from `v` back to the BFS root, together with the node
sequence it spells (root first). -/
inductive ParentChain (parent : List (FileType × FileType)) (root : FileType) :
    FileType → List FileType → Prop
  | root : lookupParent parent root = none → ParentChain parent root root [root]
  | step {v u : FileType} {p : List FileType} :
      lookupParent parent v = some u → ParentChain parent root u p →
      ParentChain parent root v (p ++ [v])

/-- A node sequence that realises a conversion from `f` to `t`: it starts at `f`,
ends at `t`, and every consecutive pair is a registered edge. -/
def EdgeSeq (edges : List (FileType × FileType)) (f t : FileType) (q : List FileType) : Prop :=
  q.head? = some f ∧ q.getLast? = some t ∧ List.Chain' (fun a b => (a, b) ∈ edges) q

/-- The hops of a list chain correctly: the first hop reads `cur` and every later hop
reads the previous hop's output. -/
def chainOK : List Hop → FsPath → Prop
  | [], _ => True
  | h :: rest, cur => h.input = cur ∧ chainOK rest h.output

/-- Invariant of the BFS main loop of `find_conversion_path`, for source `src` and
target `t`. The witness `pathOf` assigns to every visited node the path the parent
map records for it. -/
def BfsInv (edges : List (FileType × FileType)) (src t : FileType)
    (queue visited : List FileType) (parent : List (FileType × FileType)) : Prop :=
  ∃ pathOf : FileType → List FileType,
    visited.Nodup ∧
    (∀ v ∈ queue, v ∈ visited) ∧
    src ∈ visited ∧
    (t ∈ visited → t ∈ queue) ∧
    (∀ k u, lookupParent parent k = some u → k ∈ visited) ∧
    (∀ v ∈ visited,
      ParentChain parent src v (pathOf v) ∧
      IsPath edges src (pathOf v) v ∧
      (pathOf v).length ≤ parent.length + 1 ∧
      (∀ x ∈ pathOf v, x ∈ visited) ∧
      (∀ x ∈ (pathOf v).dropLast, x ≠ t) ∧
      (∀ q, IsPath edges src q v → (pathOf v).length ≤ q.length)) ∧
    List.Pairwise (fun a b => (pathOf a).length ≤ (pathOf b).length) queue ∧
    (∀ x, queue.head? = some x → ∀ v ∈ queue, (pathOf v).length ≤ (pathOf x).length + 1) ∧
    (∀ u ∈ visited, u ∉ queue → ∀ w, (u, w) ∈ edges → w ∈ visited)

theorem allFileTypes_complete (x : FileType) : x ∈ allFileTypes := by
  cases x with
  | Unknown => decide
  | Image t => cases t <;> decide
  | Audio t => cases t <;> decide

theorem nodup_fileTypes_length_le (l : List FileType) (h : l.Nodup) : l.length ≤ 5 := by
  have hsub : l ⊆ allFileTypes := fun x _ => allFileTypes_complete x
  have := (h.subperm hsub).length_le
  simpa [allFileTypes] using this

theorem read_write_self (fs : FileSystem) (p : FsPath) (b : Bytes) :
    FileSystem.read (FileSystem.write fs p b) p = some b := by
  induction fs with
  | nil => simp [FileSystem.write, FileSystem.read]
  | cons hd tl ih =>
    obtain ⟨q, c⟩ := hd
    by_cases hq : q = p
    · simp [FileSystem.write, FileSystem.read, hq]
    · simp [FileSystem.write, FileSystem.read, hq, ih]

theorem read_write_ne (fs : FileSystem) (p q : FsPath) (b : Bytes) (h : q ≠ p) :
    FileSystem.read (FileSystem.write fs p b) q = FileSystem.read fs q := by
  induction fs with
  | nil => simp [FileSystem.write, FileSystem.read, h, Ne.symm h]
  | cons hd tl ih =>
    obtain ⟨k, c⟩ := hd
    by_cases hk : k = p
    · subst hk
      simp [FileSystem.write, FileSystem.read, h, Ne.symm h]
    · by_cases hkq : k = q
      · simp [FileSystem.write, FileSystem.read, hk, hkq, h]
      · simp [FileSystem.write, FileSystem.read, hk, hkq, ih]

theorem lookupConv_insertKey_self {σ : Type} (r : ConverterRegistry σ)
    (k : FileType × FileType) (c : Converter σ) :
    lookupConv (insertKey r k c) k = some c := by
  induction r with
  | nil => simp [insertKey, lookupConv]
  | cons hd tl ih =>
    obtain ⟨k', c'⟩ := hd
    by_cases hk : k' = k
    · simp [insertKey, lookupConv, hk]
    · simp [insertKey, lookupConv, hk, ih]

theorem mem_keys_insertKey {σ : Type} (r : ConverterRegistry σ)
    (k : FileType × FileType) (c : Converter σ) (x : FileType × FileType) :
    x ∈ (insertKey r k c).map Prod.fst ↔ x ∈ r.map Prod.fst ∨ x = k := by
  induction r with
  | nil => simp [insertKey]
  | cons hd tl ih =>
    obtain ⟨k', c'⟩ := hd
    by_cases hk : k' = k
    · subst hk
      simp [insertKey]
      tauto
    · simp [insertKey, hk, ih]
      tauto

theorem insertKey_keys_nodup {σ : Type} (r : ConverterRegistry σ)
    (k : FileType × FileType) (c : Converter σ) (h : (r.map Prod.fst).Nodup) :
    ((insertKey r k c).map Prod.fst).Nodup := by
  induction r with
  | nil => simp [insertKey]
  | cons hd tl ih =>
    obtain ⟨k', c'⟩ := hd
    simp only [List.map_cons, List.nodup_cons] at h
    by_cases hk : k' = k
    · subst hk
      simpa [insertKey] using h
    · have heq : insertKey ((k', c') :: tl) k c = (k', c') :: insertKey tl k c := by
        simp [insertKey, hk]
      rw [heq, List.map_cons]
      refine List.nodup_cons.mpr ⟨?_, ih h.2⟩
      intro hmem
      rcases (mem_keys_insertKey tl k c k').mp hmem with h1 | h1
      · exact h.1 h1
      · exact hk h1

/-- Claim C7: for every format identity `X` and every registry state, including an
empty one and one with no edges touching `X`, `find_conversion_path X X` returns
`some [X]`, the zero-hop identity path. -/
theorem find_conversion_path_self {σ : Type} (r : ConverterRegistry σ) (X : FileType) :
    ConverterRegistry.find_conversion_path r X X = some [X] := by
  simp [ConverterRegistry.find_conversion_path]

/-- Claim C4: `ConverterRegistry::convert` returns a "no converter available" error
naming both endpoints when no capability is registered for the ordered pair, and
otherwise invokes the registered capability and returns its result unchanged. -/
theorem registry_convert_spec {σ : Type} (r : ConverterRegistry σ) (f t : FileType)
    (input output : FsPath) (s : σ) :
    (lookupConv r (f, t) = none →
      ConverterRegistry.convert r f t input output s =
        (Except.error ("No converter available from " ++ debugFileType f ++ " to "
            ++ debugFileType t), s)) ∧
    (∀ c, lookupConv r (f, t) = some c →
      ConverterRegistry.convert r f t input output s = c.run input output s) := by
  constructor
  · intro h
    simp [ConverterRegistry.convert, h]
  · intro c h
    simp [ConverterRegistry.convert, h]

/-- Witness for C4: on the empty registry the lookup misses and the error names
both endpoints; this applies `registry_convert_spec` at a concrete input. -/
theorem registry_convert_spec_witness :
    ConverterRegistry.convert ([] : ConverterRegistry Nat)
        (FileType.Image ImageFileType.PNG) (FileType.Image ImageFileType.JPEG)
        ⟨[], "a.png"⟩ ⟨[], "a.jpg"⟩ 0 =
      (Except.error "No converter available from Image(PNG) to Image(JPEG)", 0) :=
  (registry_convert_spec [] (FileType.Image ImageFileType.PNG)
      (FileType.Image ImageFileType.JPEG) ⟨[], "a.png"⟩ ⟨[], "a.jpg"⟩ 0).1 rfl

/-- Claim C5: registering a second capability for the same ordered pair keeps at most
one capability per pair and makes every subsequent `can_convert` and `convert` for
that pair use only the newest capability. -/
theorem register_last_wins {σ : Type} (r : ConverterRegistry σ) (c1 c2 : Converter σ)
    (hkey : (c1.from_type, c1.to_type) = (c2.from_type, c2.to_type))
    (hnodup : (r.map Prod.fst).Nodup) (input output : FsPath) (s : σ) :
    (((ConverterRegistry.register (ConverterRegistry.register r c1) c2).map Prod.fst).Nodup) ∧
    lookupConv (ConverterRegistry.register (ConverterRegistry.register r c1) c2)
        (c1.from_type, c1.to_type) = some c2 ∧
    ConverterRegistry.can_convert (ConverterRegistry.register (ConverterRegistry.register r c1) c2)
        c2.from_type c2.to_type = true ∧
    ConverterRegistry.convert (ConverterRegistry.register (ConverterRegistry.register r c1) c2)
        c2.from_type c2.to_type input output s = c2.run input output s := by
  have hlook : lookupConv (ConverterRegistry.register (ConverterRegistry.register r c1) c2)
      (c2.from_type, c2.to_type) = some c2 := by
    unfold ConverterRegistry.register
    exact lookupConv_insertKey_self _ _ _
  refine ⟨?_, ?_, ?_, ?_⟩
  · exact insertKey_keys_nodup _ _ _ (insertKey_keys_nodup _ _ _ hnodup)
  · rw [hkey]
    exact hlook
  · simp [ConverterRegistry.can_convert, hlook]
  · simp [ConverterRegistry.convert, hlook]

/-- Witness for C5: two distinct capabilities for (PNG, JPEG) registered in order on
the empty registry; the second one wins. -/
theorem register_last_wins_witness :
    ((⟨fun _ _ s => (Except.ok (), s), FileType.Image ImageFileType.PNG,
        FileType.Image ImageFileType.JPEG⟩ : Converter Nat).from_type,
      (⟨fun _ _ s => (Except.ok (), s), FileType.Image ImageFileType.PNG,
        FileType.Image ImageFileType.JPEG⟩ : Converter Nat).to_type) =
      ((⟨fun _ _ s => (Except.error "x", s), FileType.Image ImageFileType.PNG,
        FileType.Image ImageFileType.JPEG⟩ : Converter Nat).from_type,
      (⟨fun _ _ s => (Except.error "x", s), FileType.Image ImageFileType.PNG,
        FileType.Image ImageFileType.JPEG⟩ : Converter Nat).to_type) ∧
    lookupConv (ConverterRegistry.register (ConverterRegistry.register ([] : ConverterRegistry Nat)
        ⟨fun _ _ s => (Except.ok (), s), FileType.Image ImageFileType.PNG,
          FileType.Image ImageFileType.JPEG⟩)
        ⟨fun _ _ s => (Except.error "x", s), FileType.Image ImageFileType.PNG,
          FileType.Image ImageFileType.JPEG⟩)
        (FileType.Image ImageFileType.PNG, FileType.Image ImageFileType.JPEG) =
      some ⟨fun _ _ s => (Except.error "x", s), FileType.Image ImageFileType.PNG,
        FileType.Image ImageFileType.JPEG⟩ := by
  constructor
  · rfl
  · exact (register_last_wins ([] : ConverterRegistry Nat)
      ⟨fun _ _ s => (Except.ok (), s), FileType.Image ImageFileType.PNG,
        FileType.Image ImageFileType.JPEG⟩
      ⟨fun _ _ s => (Except.error "x", s), FileType.Image ImageFileType.PNG,
        FileType.Image ImageFileType.JPEG⟩
      rfl (by simp) ⟨[], "a.png"⟩ ⟨[], "a.jpg"⟩ 0).2.1

/-- Claim C3: a conversion request whose declared source or target format is the
`Unknown` sentinel fails with an error and leaves the world state untouched, so no
filesystem access happens. -/
theorem convert_unknown_no_fs {σ : Type} (b : FileConvertBuilder σ) (s : σ)
    (h : b.from_.1 = FileType.Unknown ∨ b.to_.1 = FileType.Unknown) :
    ∃ e, b.convert s = (Except.error e, s) := by
  unfold FileConvertBuilder.convert
  rcases hreg : b.registry with _ | r0
  · exact ⟨_, rfl⟩
  · by_cases hf : b.from_.1 = FileType.Unknown
    · exact ⟨"Source file type not specified", by simp [hf]⟩
    · have ht : b.to_.1 = FileType.Unknown := h.resolve_left hf
      exact ⟨"Target file type not specified", by simp [hf, ht]⟩

/-- Witness for C3: a request with an unknown source format over a `Nat` world state
fails and returns the state unchanged. -/
theorem convert_unknown_no_fs_witness :
    ∃ e, FileConvertBuilder.convert
        (⟨(FileType.Unknown, ⟨[], "a.png"⟩), (FileType.Image ImageFileType.JPEG, none),
          some [], []⟩ : FileConvertBuilder Nat) 7 = (Except.error e, 7) :=
  convert_unknown_no_fs
    (⟨(FileType.Unknown, ⟨[], "a.png"⟩), (FileType.Image ImageFileType.JPEG, none),
      some [], []⟩ : FileConvertBuilder Nat) 7 (Or.inl rfl)

/-- Claim C6: when a direct edge is registered for the requested pair, the
orchestrator executes exactly that capability once, on the source path and the
resolved output path, and returns its result; path search is never consulted. -/
theorem convert_direct_edge {σ : Type} (b : FileConvertBuilder σ) (s : σ)
    (r0 : ConverterRegistry σ) (c : Converter σ)
    (hreg : b.registry = some r0)
    (hf : b.from_.1 ≠ FileType.Unknown) (ht : b.to_.1 ≠ FileType.Unknown)
    (hlook : lookupConv (b.custom_converters.foldl ConverterRegistry.register r0)
        (b.from_.1, b.to_.1) = some c) :
    b.convert s = c.run b.from_.2 (resolveOutputPath b) s := by
  unfold FileConvertBuilder.convert
  simp only [hreg]
  simp [hf, ht, ConverterRegistry.can_convert, hlook, ConverterRegistry.convert]

/-- Witness for C6: a builder whose registry has a direct (PNG, JPEG) edge runs that
capability on the source path and the resolved output path. -/
theorem convert_direct_edge_witness :
    FileConvertBuilder.convert
        (⟨(FileType.Image ImageFileType.PNG, ⟨[], "a.png"⟩),
          (FileType.Image ImageFileType.JPEG, none),
          some [((FileType.Image ImageFileType.PNG, FileType.Image ImageFileType.JPEG),
            ⟨fun _ _ s => (Except.ok (), s + 1), FileType.Image ImageFileType.PNG,
              FileType.Image ImageFileType.JPEG⟩)], []⟩ : FileConvertBuilder Nat) 0 =
      (Except.ok (), 1) := by
  have h := convert_direct_edge
    (⟨(FileType.Image ImageFileType.PNG, ⟨[], "a.png"⟩),
      (FileType.Image ImageFileType.JPEG, none),
      some [((FileType.Image ImageFileType.PNG, FileType.Image ImageFileType.JPEG),
        ⟨fun _ _ s => (Except.ok (), s + 1), FileType.Image ImageFileType.PNG,
          FileType.Image ImageFileType.JPEG⟩)], []⟩ : FileConvertBuilder Nat) 0
    [((FileType.Image ImageFileType.PNG, FileType.Image ImageFileType.JPEG),
      ⟨fun _ _ s => (Except.ok (), s + 1), FileType.Image ImageFileType.PNG,
        FileType.Image ImageFileType.JPEG⟩)]
    ⟨fun _ _ s => (Except.ok (), s + 1), FileType.Image ImageFileType.PNG,
      FileType.Image ImageFileType.JPEG⟩
    rfl (by decide) (by decide) rfl
  exact h

/-- Claim C10: a request whose source and target formats agree (and are not
`Unknown`), with no self-edge registered for that pair, silently succeeds as a
no-op: the identity path yields zero hops, no converter runs, the state is
untouched. -/
theorem convert_same_type_noop {σ : Type} (b : FileConvertBuilder σ) (s : σ)
    (r0 : ConverterRegistry σ) (hreg : b.registry = some r0)
    (heq : b.from_.1 = b.to_.1) (hunk : b.from_.1 ≠ FileType.Unknown)
    (hself : lookupConv (b.custom_converters.foldl ConverterRegistry.register r0)
        (b.from_.1, b.to_.1) = none) :
    b.convert s = (Except.ok (), s) := by
  unfold FileConvertBuilder.convert
  simp only [hreg]
  have ht : b.to_.1 ≠ FileType.Unknown := heq ▸ hunk
  have hself' : lookupConv (b.custom_converters.foldl ConverterRegistry.register r0)
      (b.to_.1, b.to_.1) = none := heq ▸ hself
  simp [hunk, ht, ConverterRegistry.can_convert, hself, hself',
    ConverterRegistry.find_conversion_path, heq, runHops]

/-- Witness for C10: a JPEG-to-JPEG request over an empty registry returns `Ok` with
the state unchanged. -/
theorem convert_same_type_noop_witness :
    FileConvertBuilder.convert
        (⟨(FileType.Image ImageFileType.JPEG, ⟨[], "a.jpg"⟩),
          (FileType.Image ImageFileType.JPEG, none), some [], []⟩ : FileConvertBuilder Nat) 3 =
      (Except.ok (), 3) :=
  convert_same_type_noop
    (⟨(FileType.Image ImageFileType.JPEG, ⟨[], "a.jpg"⟩),
      (FileType.Image ImageFileType.JPEG, none), some [], []⟩ : FileConvertBuilder Nat) 3
    [] rfl rfl (by decide) rfl

/-- Claim C2: whenever the `PngToJpeg` capability succeeds, the output path ends up
holding exactly the bytes of the input path: the JPEG artifact written first is
overwritten by the final byte-for-byte copy of the source file. -/
theorem pngToJpeg_copies_input {Img Rgb : Type} (codec : ImageCodec Img Rgb)
    (input output : FsPath) (fs fs' : FileSystem) (u : Unit)
    (hsucc : pngToJpegConvert codec input output fs = (Except.ok u, fs')) :
    FileSystem.read fs' output = FileSystem.read fs' input ∧
    (input ≠ output → FileSystem.read fs' output = FileSystem.read fs input) := by
  unfold pngToJpegConvert at hsucc
  split at hsucc
  · simp at hsucc
  · split at hsucc
    · simp at hsucc
    · split at hsucc
      · simp at hsucc
      · rename_i o1 bytes hread o2 img hdec o3 src hread2
        have hfs' : FileSystem.write (FileSystem.write (FileSystem.write fs output [])
            output (codec.encode_jpeg (codec.to_rgb8 img))) output src = fs' :=
          congrArg Prod.snd hsucc
        subst hfs'
        refine ⟨?_, ?_⟩
        · by_cases hio : input = output
          · rw [hio]
          · rw [read_write_self, read_write_ne _ _ _ _ hio, hread2]
        · intro hio
          rw [read_write_self]
          rw [read_write_ne _ _ _ _ hio, read_write_ne _ _ _ _ hio] at hread2
          rw [hread2]

/-- Witness for C2: a successful concrete run of the modelled `PngToJpeg::convert`
over a one-file filesystem, with distinct input and output paths. -/
theorem pngToJpeg_copies_input_witness :
    FileSystem.read ((pngToJpegConvert
        (⟨fun b => some b, fun b => b, fun _ => [9, 9]⟩ : ImageCodec Bytes Bytes)
        ⟨[], "a.png"⟩ ⟨[], "a.jpg"⟩ [(⟨[], "a.png"⟩, [1, 2, 3])]).2) ⟨[], "a.jpg"⟩ =
      FileSystem.read [(⟨[], "a.png"⟩, [1, 2, 3])] ⟨[], "a.png"⟩ :=
  (pngToJpeg_copies_input
    (⟨fun b => some b, fun b => b, fun _ => [9, 9]⟩ : ImageCodec Bytes Bytes)
    ⟨[], "a.png"⟩ ⟨[], "a.jpg"⟩ [(⟨[], "a.png"⟩, [1, 2, 3])]
    ((pngToJpegConvert (⟨fun b => some b, fun b => b, fun _ => [9, 9]⟩ : ImageCodec Bytes Bytes)
        ⟨[], "a.png"⟩ ⟨[], "a.jpg"⟩ [(⟨[], "a.png"⟩, [1, 2, 3])]).2) () (by rfl)).2
    (by decide)

theorem runHops_eq_execHops {σ : Type} (r : ConverterRegistry σ) (finalType : FileType)
    (output_path : FsPath) :
    ∀ (p : List FileType) (cur : FsPath) (s : σ),
      runHops r finalType output_path p cur s =
        execHops r (hopList finalType output_path p cur) s
  | [], cur, s => by simp [runHops, hopList, execHops]
  | [a], cur, s => by simp [runHops, hopList, execHops]
  | a :: b :: rest, cur, s => by
    simp only [runHops, hopList, execHops]
    cases hc : ConverterRegistry.convert r a b cur (hopOutput finalType output_path cur b) s with
    | mk res s1 =>
      cases res with
      | ok u =>
        simpa using runHops_eq_execHops r finalType output_path (b :: rest)
          (hopOutput finalType output_path cur b) s1
      | error e => simp

theorem execHops_append {σ : Type} (r : ConverterRegistry σ) :
    ∀ (L1 L2 : List Hop) (s : σ),
      execHops r (L1 ++ L2) s =
        match execHops r L1 s with
        | (Except.ok _, s1) => execHops r L2 s1
        | (Except.error e, s1) => (Except.error e, s1)
  | [], L2, s => by simp [execHops]
  | h :: rest, L2, s => by
    simp only [List.cons_append, execHops]
    cases hc : ConverterRegistry.convert r h.src h.tgt h.input h.output s with
    | mk res s1 =>
      cases res with
      | ok u => simpa using execHops_append r rest L2 s1
      | error e => simp

/-- Claim C9: in a multi-hop execution the hops run strictly in path order; the first
hop that fails makes the loop return that hop's error immediately, the later hops are
never executed, and the state is exactly as the failing hop left it — every temporary
artifact already produced by earlier hops survives (no rollback). -/
theorem multi_hop_first_failure {σ : Type} (r : ConverterRegistry σ) (finalType : FileType)
    (output_path : FsPath) (p : List FileType) (cur : FsPath) (s s1 s2 : σ)
    (L1 L2 : List Hop) (h : Hop) (e : String)
    (hsplit : hopList finalType output_path p cur = L1 ++ h :: L2)
    (hpre : execHops r L1 s = (Except.ok (), s1))
    (hfail : ConverterRegistry.convert r h.src h.tgt h.input h.output s1 = (Except.error e, s2)) :
    runHops r finalType output_path p cur s = (Except.error e, s2) := by
  rw [runHops_eq_execHops, hsplit, execHops_append, hpre]
  simp [execHops, hfail]

/-- Witness for C9: a three-node path whose second hop fails; the run stops there
with the state produced by the first hop plus the failing attempt. -/
theorem multi_hop_first_failure_witness :
    runHops
        [((FileType.Image ImageFileType.PNG, FileType.Image ImageFileType.JPEG),
          (⟨fun _ _ s => (Except.ok (), s + 1), FileType.Image ImageFileType.PNG,
            FileType.Image ImageFileType.JPEG⟩ : Converter Nat)),
        ((FileType.Image ImageFileType.JPEG, FileType.Audio AudioFileType.MP3),
          (⟨fun _ _ s => (Except.error "boom", s + 10), FileType.Image ImageFileType.JPEG,
            FileType.Audio AudioFileType.MP3⟩ : Converter Nat))]
        (FileType.Audio AudioFileType.MP3) ⟨[], "a.mp3"⟩
        [FileType.Image ImageFileType.PNG, FileType.Image ImageFileType.JPEG,
          FileType.Audio AudioFileType.MP3] ⟨[], "a.png"⟩ 0 =
      (Except.error "boom", 11) :=
  multi_hop_first_failure
    [((FileType.Image ImageFileType.PNG, FileType.Image ImageFileType.JPEG),
      (⟨fun _ _ s => (Except.ok (), s + 1), FileType.Image ImageFileType.PNG,
        FileType.Image ImageFileType.JPEG⟩ : Converter Nat)),
    ((FileType.Image ImageFileType.JPEG, FileType.Audio AudioFileType.MP3),
      (⟨fun _ _ s => (Except.error "boom", s + 10), FileType.Image ImageFileType.JPEG,
        FileType.Audio AudioFileType.MP3⟩ : Converter Nat))]
    (FileType.Audio AudioFileType.MP3) ⟨[], "a.mp3"⟩
    [FileType.Image ImageFileType.PNG, FileType.Image ImageFileType.JPEG,
      FileType.Audio AudioFileType.MP3] ⟨[], "a.png"⟩ 0 1 11
    [⟨FileType.Image ImageFileType.PNG, FileType.Image ImageFileType.JPEG,
      ⟨[], "a.png"⟩, ⟨[], "temp_a.jpg"⟩⟩] []
    ⟨FileType.Image ImageFileType.JPEG, FileType.Audio AudioFileType.MP3,
      ⟨[], "temp_a.jpg"⟩, ⟨[], "a.mp3"⟩⟩ "boom"
    (by rfl) (by rfl) (by rfl)

theorem IsPath.length_pos {edges : List (FileType × FileType)} {a b : FileType}
    {p : List FileType} (h : IsPath edges a p b) : 1 ≤ p.length := by
  cases h <;> simp

theorem IsPath.head_eq {edges : List (FileType × FileType)} {a b : FileType}
    {p : List FileType} (h : IsPath edges a p b) : p.head? = some a := by
  cases h <;> simp

theorem IsPath.getLast_eq {edges : List (FileType × FileType)} {a b : FileType}
    {p : List FileType} (h : IsPath edges a p b) : p.getLast? = some b := by
  induction h with
  | single a => simp
  | cons hab hrest ih =>
    rename_i a b c p
    cases p with
    | nil => cases hrest
    | cons x xs => rw [List.getLast?_cons_cons]; exact ih

theorem IsPath.concat {edges : List (FileType × FileType)} {a b c : FileType}
    {p : List FileType} (h : IsPath edges a p b) (hbc : (b, c) ∈ edges) :
    IsPath edges a (p ++ [c]) c := by
  induction h with
  | single a => exact IsPath.cons hbc (IsPath.single c)
  | cons hab hrest ih => exact IsPath.cons hab (ih hbc)

theorem IsPath.end_mem_of_closed {edges : List (FileType × FileType)} {vis : List FileType}
    (hclosed : ∀ u ∈ vis, ∀ w, (u, w) ∈ edges → w ∈ vis) :
    ∀ {a b : FileType} {p : List FileType}, IsPath edges a p b → a ∈ vis → b ∈ vis := by
  intro a b p h
  induction h with
  | single a => exact fun h => h
  | cons hab hrest ih => exact fun ha => ih (hclosed _ ha _ hab)

theorem isPath_frontier {edges : List (FileType × FileType)} {vis : List FileType} :
    ∀ {a w : FileType} {q : List FileType}, IsPath edges a q w → a ∈ vis → w ∉ vis →
      ∃ x y qx, IsPath edges a qx x ∧ x ∈ vis ∧ y ∉ vis ∧ (x, y) ∈ edges ∧
        qx.length < q.length := by
  intro a w q hq
  induction hq with
  | single a => exact fun ha hw => absurd ha hw
  | cons hab hrest ih =>
    rename_i a b c p
    intro ha hw
    by_cases hb : b ∈ vis
    · obtain ⟨x, y, qx, h1, h2, h3, h4, h5⟩ := ih hb hw
      exact ⟨x, y, a :: qx, IsPath.cons hab h1, h2, h3, h4, by
        simpa using Nat.succ_lt_succ h5⟩
    · refine ⟨a, b, [a], IsPath.single a, ha, hb, hab, ?_⟩
      have h1 := hrest.length_pos
      simp only [List.length_cons, List.length_nil]
      omega

theorem lookupParent_append_some {l1 l2 : List (FileType × FileType)} {n u : FileType}
    (h : lookupParent l1 n = some u) : lookupParent (l1 ++ l2) n = some u := by
  induction l1 with
  | nil => simp [lookupParent] at h
  | cons hd tl ih =>
    obtain ⟨k, v⟩ := hd
    by_cases hk : k = n
    · simp_all [lookupParent]
    · simp only [lookupParent, if_neg hk] at h
      simpa [lookupParent, hk] using ih h

theorem lookupParent_append_none {l1 l2 : List (FileType × FileType)} {n : FileType}
    (h : lookupParent l1 n = none) : lookupParent (l1 ++ l2) n = lookupParent l2 n := by
  induction l1 with
  | nil => simp [lookupParent]
  | cons hd tl ih =>
    obtain ⟨k, v⟩ := hd
    by_cases hk : k = n
    · simp [lookupParent, hk] at h
    · simp only [lookupParent, if_neg hk] at h
      simpa [lookupParent, hk] using ih h

theorem lookupParent_map_none {new : List FileType} {cur x : FileType} (h : x ∉ new) :
    lookupParent (new.map (fun w => (w, cur))) x = none := by
  induction new with
  | nil => simp [lookupParent]
  | cons hd tl ih =>
    simp only [List.mem_cons, not_or] at h
    have hne : hd ≠ x := fun h' => h.1 h'.symm
    simpa [lookupParent, hne] using ih h.2

theorem lookupParent_map_some {new : List FileType} {cur x : FileType} (h : x ∈ new) :
    lookupParent (new.map (fun w => (w, cur))) x = some cur := by
  induction new with
  | nil => simp at h
  | cons hd tl ih =>
    by_cases hx : hd = x
    · simp [lookupParent, hx]
    · have : x ∈ tl := by
        rcases List.mem_cons.mp h with h1 | h1
        · exact absurd h1.symm hx
        · exact h1
      simpa [lookupParent, hx] using ih this

theorem ParentChain.concat_shape {parent : List (FileType × FileType)} {root v : FileType}
    {p : List FileType} (h : ParentChain parent root v p) : ∃ q, p = q ++ [v] := by
  cases h with
  | root _ => exact ⟨[], rfl⟩
  | step _ _ => exact ⟨_, rfl⟩

theorem ParentChain.stable {parent ext : List (FileType × FileType)} {root v : FileType}
    {p : List FileType} (h : ParentChain parent root v p)
    (hext : ∀ x ∈ p, lookupParent ext x = none) :
    ParentChain (parent ++ ext) root v p := by
  induction h with
  | root hr =>
    refine ParentChain.root ?_
    rw [lookupParent_append_none hr]
    exact hext _ (by simp)
  | step hv hchain ih =>
    rename_i v u p
    refine ParentChain.step (lookupParent_append_some hv) (ih ?_)
    intro x hx
    exact hext x (by simp [hx])

theorem reconstruct_eq_aux {parent : List (FileType × FileType)} {root : FileType} :
    ∀ {v : FileType} {p : List FileType}, ParentChain parent root v p →
      ∀ (F : Nat) (acc : List FileType), p.length ≤ F + 1 →
        reconstruct parent F acc v = (acc ++ p.dropLast.reverse).reverse := by
  intro v p h
  induction h with
  | root hr =>
    intro F acc hF
    cases F with
    | zero => simp [reconstruct]
    | succ F => simp [reconstruct, hr]
  | step hv hchain ih =>
    rename_i v u p
    intro F acc hF
    obtain ⟨q, hq⟩ := hchain.concat_shape
    have hplen : 1 ≤ p.length := by rw [hq]; simp
    cases F with
    | zero =>
      exfalso
      simp only [List.length_append, List.length_singleton] at hF
      omega
    | succ F =>
      have hstep : reconstruct parent (F + 1) acc v = reconstruct parent F (acc ++ [u]) u := by
        simp [reconstruct, hv]
      rw [hstep, ih F (acc ++ [u]) (by
        simp only [List.length_append, List.length_singleton] at hF
        omega)]
      subst hq
      simp [List.dropLast_concat]

theorem reconstruct_eq {parent : List (FileType × FileType)} {root v : FileType}
    {p : List FileType} {F : Nat} (h : ParentChain parent root v p)
    (hlen : p.length ≤ F + 1) : reconstruct parent F [v] v = p := by
  rw [reconstruct_eq_aux h F [v] hlen]
  obtain ⟨q, hq⟩ := h.concat_shape
  subst hq
  simp [List.dropLast_concat]

theorem pairwise_le_of_const (l : List FileType) (f : FileType → Nat) (c : Nat)
    (h : ∀ x ∈ l, f x = c) : l.Pairwise (fun a b => f a ≤ f b) := by
  induction l with
  | nil => simp
  | cons hd tl ih =>
    refine List.pairwise_cons.mpr ⟨?_, ih fun x hx => h x (List.mem_cons_of_mem _ hx)⟩
    intro b hb
    rw [h hd (by simp), h b (List.mem_cons_of_mem _ hb)]

theorem expand_shape (current : FileType) :
    ∀ (es : List (FileType × FileType)) (q vis : List FileType)
      (par : List (FileType × FileType)),
      ∃ new : List FileType,
        List.foldl (expandStep current) (q, vis, par) es =
          (q ++ new, vis ++ new, par ++ new.map (fun w => (w, current))) ∧
        new.Nodup ∧
        (∀ w ∈ new, w ∉ vis ∧ (current, w) ∈ es) ∧
        (∀ b, (current, b) ∈ es → b ∈ vis ∨ b ∈ new)
  | [], q, vis, par => ⟨[], by simp, by simp, by simp, by simp⟩
  | e :: es, q, vis, par => by
    by_cases hc : e.1 = current ∧ ¬ e.2 ∈ vis
    · obtain ⟨new, hfold, hnd, hmem, hcov⟩ :=
        expand_shape current es (q ++ [e.2]) (vis ++ [e.2]) (par ++ [(e.2, current)])
      have hestep : expandStep current (q, vis, par) e =
          (q ++ [e.2], vis ++ [e.2], par ++ [(e.2, current)]) := by
        simp [expandStep, hc]
      refine ⟨e.2 :: new, ?_, ?_, ?_, ?_⟩
      · rw [List.foldl_cons, hestep, hfold]
        simp
      · refine List.nodup_cons.mpr ⟨?_, hnd⟩
        intro hmem2
        exact (hmem e.2 hmem2).1 (by simp)
      · intro w hw
        rcases List.mem_cons.mp hw with hw | hw
        · subst hw
          refine ⟨hc.2, ?_⟩
          rw [← hc.1]
          simp
        · obtain ⟨hw1, hw2⟩ := hmem w hw
          refine ⟨fun hwv => hw1 (by simp [hwv]), List.mem_cons_of_mem _ hw2⟩
      · intro b hb
        rcases List.mem_cons.mp hb with hb | hb
        · have : b = e.2 := congrArg Prod.snd hb
          exact Or.inr (by simp [this])
        · rcases hcov b hb with h1 | h1
          · rcases List.mem_append.mp h1 with h2 | h2
            · exact Or.inl h2
            · exact Or.inr (by simp at h2; simp [h2])
          · exact Or.inr (List.mem_cons_of_mem _ h1)
    · obtain ⟨new, hfold, hnd, hmem, hcov⟩ := expand_shape current es q vis par
      have hestep : expandStep current (q, vis, par) e = (q, vis, par) := by
        simp [expandStep, hc]
      refine ⟨new, ?_, hnd, ?_, ?_⟩
      · rw [List.foldl_cons, hestep, hfold]
      · exact fun w hw => ⟨(hmem w hw).1, List.mem_cons_of_mem _ (hmem w hw).2⟩
      · intro b hb
        rcases List.mem_cons.mp hb with hb | hb
        · push_neg at hc
          have h1 : e.1 = current := (congrArg Prod.fst hb).symm
          have h2 : e.2 = b := (congrArg Prod.snd hb).symm
          exact Or.inl (h2 ▸ hc h1)
        · exact hcov b hb

theorem bfs_step_inv {edges : List (FileType × FileType)} {src t current : FileType}
    {rest visited : List FileType} {parent : List (FileType × FileType)}
    (hinv : BfsInv edges src t (current :: rest) visited parent) (hct : current ≠ t) :
    ∃ new : List FileType,
      expand edges current (rest, visited, parent) =
        (rest ++ new, visited ++ new, parent ++ new.map (fun w => (w, current))) ∧
      BfsInv edges src t (rest ++ new) (visited ++ new)
        (parent ++ new.map (fun w => (w, current))) := by
  obtain ⟨pathOf, hnd, hqv, hsrc, htq, hpk, hvis, hpair, hhead, hclosed⟩ := hinv
  obtain ⟨new, hfold, hndnew, hnw, hcov⟩ := expand_shape current edges rest visited parent
  have hcur_vis : current ∈ visited := hqv current (by simp)
  obtain ⟨hPCchain, hPCpath, hPClen, hPCmem, hPCdrop, hPCmin⟩ := hvis current hcur_vis
  have hpair_rest : List.Pairwise (fun a b => (pathOf a).length ≤ (pathOf b).length) rest :=
    (List.pairwise_cons.mp hpair).2
  have hcur_le : ∀ b ∈ rest, (pathOf current).length ≤ (pathOf b).length :=
    (List.pairwise_cons.mp hpair).1
  have hdisj : ∀ x ∈ visited, x ∉ new := fun x hx hxn => (hnw x hxn).1 hx
  have hmapnone : ∀ x ∈ visited, lookupParent (new.map (fun w => (w, current))) x = none :=
    fun x hx => lookupParent_map_none (hdisj x hx)
  have hstab : ∀ x ∈ visited,
      lookupParent (parent ++ new.map (fun w => (w, current))) x = lookupParent parent x := by
    intro x hx
    cases hl : lookupParent parent x with
    | some u => exact lookupParent_append_some hl
    | none => rw [lookupParent_append_none hl]; exact hmapnone x hx
  have hchain_stab : ∀ v ∈ visited,
      ParentChain (parent ++ new.map (fun w => (w, current))) src v (pathOf v) := by
    intro v hv
    exact ((hvis v hv).1).stable (fun x hx => hmapnone x ((hvis v hv).2.2.2.1 x hx))
  have hlooknew : ∀ w ∈ new,
      lookupParent (parent ++ new.map (fun w => (w, current))) w = some current := by
    intro w hw
    have hwv : w ∉ visited := (hnw w hw).1
    have hparnone : lookupParent parent w = none := by
      cases hl : lookupParent parent w with
      | none => rfl
      | some u => exact absurd (hpk w u hl) hwv
    rw [lookupParent_append_none hparnone]
    exact lookupParent_map_some hw
  refine ⟨new, by simpa [expand] using hfold, ?_⟩
  unfold BfsInv
  refine ⟨fun v => if v ∈ new then pathOf current ++ [v] else pathOf v,
    ?_, ?_, ?_, ?_, ?_, ?_, ?_, ?_, ?_⟩
  · exact hnd.append hndnew (fun a ha hb => hdisj a ha hb)
  · intro v hv
    rcases List.mem_append.mp hv with h1 | h1
    · exact List.mem_append.mpr (Or.inl (hqv v (List.mem_cons_of_mem _ h1)))
    · exact List.mem_append.mpr (Or.inr h1)
  · exact List.mem_append.mpr (Or.inl hsrc)
  · intro ht2
    rcases List.mem_append.mp ht2 with h1 | h1
    · rcases List.mem_cons.mp (htq h1) with h2 | h2
      · exact absurd h2.symm hct
      · exact List.mem_append.mpr (Or.inl h2)
    · exact List.mem_append.mpr (Or.inr h1)
  · intro k u hk
    cases hl : lookupParent parent k with
    | some u2 => exact List.mem_append.mpr (Or.inl (hpk k u2 hl))
    | none =>
      rw [lookupParent_append_none hl] at hk
      by_cases hkn : k ∈ new
      · exact List.mem_append.mpr (Or.inr hkn)
      · rw [lookupParent_map_none hkn] at hk
        cases hk
  · intro v hv
    by_cases hvn : v ∈ new
    · simp only [if_pos hvn]
      have hnewlen : 0 < new.length := List.length_pos.mpr (List.ne_nil_of_mem hvn)
      refine ⟨ParentChain.step (hlooknew v hvn) (hchain_stab current hcur_vis),
        hPCpath.concat (hnw v hvn).2, ?_, ?_, ?_, ?_⟩
      · simp only [List.length_append, List.length_map, List.length_cons, List.length_nil]
        omega
      · intro x hx
        rcases List.mem_append.mp hx with h1 | h1
        · exact List.mem_append.mpr (Or.inl (hPCmem x h1))
        · simp only [List.mem_cons, List.not_mem_nil, or_false] at h1
          subst h1
          exact List.mem_append.mpr (Or.inr hvn)
      · rw [List.dropLast_concat]
        intro x hx
        obtain ⟨q0, hq0⟩ := hPCchain.concat_shape
        rw [hq0] at hx
        rcases List.mem_append.mp hx with h1 | h1
        · refine hPCdrop x ?_
          rw [hq0, List.dropLast_concat]
          exact h1
        · simp only [List.mem_cons, List.not_mem_nil, or_false] at h1
          subst h1
          exact hct
      · intro q hq
        have hvnot : v ∉ visited := (hnw v hvn).1
        obtain ⟨x, y, qx, hqx, hxvis, hynot, hxy, hlt⟩ := isPath_frontier hq hsrc hvnot
        have hxq : x ∈ current :: rest := by
          by_contra hxq
          exact hynot (hclosed x hxvis hxq y hxy)
        have hx_ge : (pathOf current).length ≤ (pathOf x).length := by
          rcases List.mem_cons.mp hxq with h2 | h2
          · subst h2
            exact le_rfl
          · exact hcur_le x h2
        have hqx_ge : (pathOf x).length ≤ qx.length := (hvis x hxvis).2.2.2.2.2 qx hqx
        simp only [List.length_append, List.length_cons, List.length_nil]
        omega
    · have hvv : v ∈ visited := by
        rcases List.mem_append.mp hv with h1 | h1
        · exact h1
        · exact absurd h1 hvn
      obtain ⟨h1, h2, h3, h4, h5, h6⟩ := hvis v hvv
      simp only [if_neg hvn]
      refine ⟨hchain_stab v hvv, h2, ?_, ?_, h5, h6⟩
      · simp only [List.length_append, List.length_map]
        omega
      · intro x hx
        exact List.mem_append.mpr (Or.inl (h4 x hx))
  · refine List.pairwise_append.mpr ⟨?_, ?_, ?_⟩
    · refine hpair_rest.imp_of_mem ?_
      intro a b ha hb hle
      have han : a ∉ new := hdisj a (hqv a (List.mem_cons_of_mem _ ha))
      have hbn : b ∉ new := hdisj b (hqv b (List.mem_cons_of_mem _ hb))
      simpa [han, hbn] using hle
    · exact pairwise_le_of_const new _ ((pathOf current).length + 1) (fun x hx => by simp [hx])
    · intro a ha b hb
      have han : a ∉ new := hdisj a (hqv a (List.mem_cons_of_mem _ ha))
      have hble : (pathOf a).length ≤ (pathOf current).length + 1 :=
        hhead current rfl a (List.mem_cons_of_mem _ ha)
      simp only [if_neg han, if_pos hb, List.length_append, List.length_cons, List.length_nil]
      omega
  · intro x hx v hv
    cases rest with
    | nil =>
      simp only [List.nil_append] at hx hv ⊢
      have hxn : x ∈ new := List.mem_of_mem_head? hx
      simp only [if_pos hxn, if_pos hv, List.length_append, List.length_cons, List.length_nil]
      omega
    | cons c2 rest2 =>
      have hx2 : c2 = x := by simpa using hx
      subst hx2
      have hc2r : c2 ∈ c2 :: rest2 := by simp
      have hc2n : c2 ∉ new := hdisj c2 (hqv c2 (List.mem_cons_of_mem _ hc2r))
      have hcur_c2 : (pathOf current).length ≤ (pathOf c2).length := hcur_le c2 hc2r
      simp only [if_neg hc2n]
      rcases List.mem_append.mp hv with h1 | h1
      · have hvn2 : v ∉ new := hdisj v (hqv v (List.mem_cons_of_mem _ h1))
        have := hhead current rfl v (List.mem_cons_of_mem _ h1)
        simp only [if_neg hvn2]
        omega
      · simp only [if_pos h1, List.length_append, List.length_cons, List.length_nil]
        omega
  · intro u hu hunq w hw
    rcases List.mem_append.mp hu with h1 | h1
    · by_cases hc2 : u = current
      · subst hc2
        rcases hcov w hw with h2 | h2
        · exact List.mem_append.mpr (Or.inl h2)
        · exact List.mem_append.mpr (Or.inr h2)
      · have hunr : u ∉ current :: rest := by
          intro hmem2
          rcases List.mem_cons.mp hmem2 with h3 | h3
          · exact hc2 h3
          · exact hunq (List.mem_append.mpr (Or.inl h3))
        exact List.mem_append.mpr (Or.inl (hclosed u h1 hunr w hw))
    · exact absurd (List.mem_append.mpr (Or.inr h1)) hunq

theorem bfs_init (edges : List (FileType × FileType)) (src t : FileType) :
    BfsInv edges src t [src] [src] [] := by
  unfold BfsInv
  refine ⟨fun _ => [src], by simp, by simp, by simp, by simp, ?_, ?_, ?_, ?_, ?_⟩
  · intro k u hk
    simp [lookupParent] at hk
  · intro v hv
    simp only [List.mem_singleton] at hv
    subst hv
    refine ⟨ParentChain.root rfl, IsPath.single _, by simp, fun x hx => hx, by simp, ?_⟩
    intro q hq
    simpa using hq.length_pos
  · simp
  · intro x hx v hv
    simp only [List.mem_singleton] at hv
    subst hv
    simp
  · intro u hu hunq w hw
    exact absurd hu hunq

theorem bfs_empty_none {edges : List (FileType × FileType)} {src t : FileType}
    {visited : List FileType} {parent : List (FileType × FileType)}
    (hinv : BfsInv edges src t [] visited parent) : ¬ ∃ q, IsPath edges src q t := by
  obtain ⟨pathOf, hnd, hqv, hsrc, htq, hpk, hvis, hpair, hhead, hclosed⟩ := hinv
  rintro ⟨q, hq⟩
  have hclosed' : ∀ u ∈ visited, ∀ w, (u, w) ∈ edges → w ∈ visited :=
    fun u hu w hw => hclosed u hu (by simp) w hw
  have : t ∈ visited := IsPath.end_mem_of_closed hclosed' hq hsrc
  simpa using htq this

theorem bfs_main {edges : List (FileType × FileType)} {src t : FileType} :
    ∀ (fuel : Nat) (queue visited : List FileType) (parent : List (FileType × FileType)),
      BfsInv edges src t queue visited parent →
      queue.length + 5 ≤ fuel + visited.length →
      (∀ p, bfs edges t fuel queue visited parent = some p →
          IsPath edges src p t ∧ (∀ x ∈ p.dropLast, x ≠ t) ∧
          (∀ q, IsPath edges src q t → p.length ≤ q.length)) ∧
      (bfs edges t fuel queue visited parent = none → ¬ ∃ q, IsPath edges src q t) := by
  intro fuel
  induction fuel with
  | zero =>
    intro queue visited parent hinv hfuel
    cases queue with
    | nil =>
      refine ⟨?_, fun _ => bfs_empty_none hinv⟩
      intro p hp
      simp [bfs] at hp
    | cons current rest =>
      exfalso
      obtain ⟨pathOf, hnd, _⟩ := hinv
      have hle := nodup_fileTypes_length_le visited hnd
      simp only [List.length_cons] at hfuel
      omega
  | succ fuel ih =>
    intro queue visited parent hinv hfuel
    cases queue with
    | nil =>
      refine ⟨?_, fun _ => bfs_empty_none hinv⟩
      intro p hp
      simp [bfs] at hp
    | cons current rest =>
      by_cases hct : current = t
      · subst hct
        have hbfs : bfs edges current (fuel + 1) (current :: rest) visited parent =
            some (reconstruct parent parent.length [current] current) := by
          simp [bfs]
        refine ⟨?_, ?_⟩
        · intro p hp
          rw [hbfs] at hp
          injection hp with hp
          obtain ⟨pathOf, hnd, hqv, hsrc, htq, hpk, hvis, hpair, hhead, hclosed⟩ := hinv
          have hcv : current ∈ visited := hqv current (by simp)
          obtain ⟨h1, h2, h3, h4, h5, h6⟩ := hvis current hcv
          have hrec : reconstruct parent parent.length [current] current = pathOf current :=
            reconstruct_eq h1 h3
          rw [← hp, hrec]
          exact ⟨h2, h5, h6⟩
        · intro hn
          rw [hbfs] at hn
          cases hn
      · obtain ⟨new, hexp, hinv'⟩ := bfs_step_inv hinv hct
        have hbfs : bfs edges t (fuel + 1) (current :: rest) visited parent =
            bfs edges t fuel (rest ++ new) (visited ++ new)
              (parent ++ new.map (fun w => (w, current))) := by
          simp only [bfs, if_neg hct, hexp]
        rw [hbfs]
        refine ih (rest ++ new) (visited ++ new) (parent ++ new.map (fun w => (w, current)))
          hinv' ?_
        simp only [List.length_cons] at hfuel
        simp only [List.length_append]
        omega

theorem isPath_edgeSeq {edges : List (FileType × FileType)} {f t : FileType}
    {p : List FileType} (h : IsPath edges f p t) : EdgeSeq edges f t p := by
  refine ⟨h.head_eq, h.getLast_eq, ?_⟩
  induction h with
  | single a => simp
  | cons hab hrest ih =>
    rename_i a b c p
    cases p with
    | nil => cases hrest
    | cons x xs =>
      have hx : x = b := by
        have := hrest.head_eq
        simpa using this
      subst hx
      exact List.chain'_cons.mpr ⟨hab, ih⟩

theorem edgeSeq_isPath {edges : List (FileType × FileType)} {t : FileType} :
    ∀ (p : List FileType) (f : FileType), EdgeSeq edges f t p → IsPath edges f p t := by
  intro p
  induction p with
  | nil =>
    intro f h
    obtain ⟨hh, _, _⟩ := h
    simp at hh
  | cons a rest ih =>
    intro f h
    obtain ⟨hh, hl, hc⟩ := h
    have ha : a = f := by simpa using hh
    subst ha
    cases rest with
    | nil =>
      have hat : a = t := by simpa using hl
      subst hat
      exact IsPath.single a
    | cons b rest2 =>
      have hc2 := List.chain'_cons.mp hc
      have hl2 : (b :: rest2).getLast? = some t := by
        rw [List.getLast?_cons_cons] at hl
        exact hl
      exact IsPath.cons hc2.1 (ih b ⟨by simp, hl2, hc2.2⟩)

/-- Claim C1: for every registry and distinct formats `f`, `t`, `find_conversion_path`
returns `some p` only when `p` starts at `f`, ends at `t`, follows registered edges,
and no registered edge sequence from `f` to `t` is shorter; and it returns `none`
exactly when no registered edge sequence connects `f` to `t`. -/
theorem find_conversion_path_correct {σ : Type} (r : ConverterRegistry σ) (f t : FileType)
    (hne : f ≠ t) :
    (∀ p, ConverterRegistry.find_conversion_path r f t = some p →
        EdgeSeq (r.map Prod.fst) f t p ∧
        ∀ q, EdgeSeq (r.map Prod.fst) f t q → p.length ≤ q.length) ∧
    (ConverterRegistry.find_conversion_path r f t = none ↔
        ¬ ∃ q, EdgeSeq (r.map Prod.fst) f t q) := by
  have hmain := @bfs_main (r.map Prod.fst) f t bfsFuel [f] [f] []
    (bfs_init (r.map Prod.fst) f t) (by simp [bfsFuel])
  have hfind : ConverterRegistry.find_conversion_path r f t =
      bfs (r.map Prod.fst) t bfsFuel [f] [f] [] := by
    simp [ConverterRegistry.find_conversion_path, hne]
  constructor
  · intro p hp
    rw [hfind] at hp
    obtain ⟨h1, h2, h3⟩ := hmain.1 p hp
    exact ⟨isPath_edgeSeq h1, fun q hq => h3 q (edgeSeq_isPath q f hq)⟩
  · rw [hfind]
    constructor
    · rintro hn ⟨q, hq⟩
      exact hmain.2 hn ⟨q, edgeSeq_isPath q f hq⟩
    · intro hnex
      cases hb : bfs (r.map Prod.fst) t bfsFuel [f] [f] [] with
      | none => rfl
      | some p =>
        obtain ⟨h1, _, _⟩ := hmain.1 p hb
        exact absurd ⟨p, isPath_edgeSeq h1⟩ hnex

/-- Witness for C1: the theorem applied at a concrete one-edge registry and the
distinct pair (PNG, JPEG). -/
theorem find_conversion_path_correct_witness :
    (FileType.Image ImageFileType.PNG ≠ FileType.Image ImageFileType.JPEG) ∧
    ((∀ p, ConverterRegistry.find_conversion_path
          [((FileType.Image ImageFileType.PNG, FileType.Image ImageFileType.JPEG),
            (⟨fun _ _ s => (Except.ok (), s), FileType.Image ImageFileType.PNG,
              FileType.Image ImageFileType.JPEG⟩ : Converter Nat))]
          (FileType.Image ImageFileType.PNG) (FileType.Image ImageFileType.JPEG) = some p →
        EdgeSeq [(FileType.Image ImageFileType.PNG, FileType.Image ImageFileType.JPEG)]
          (FileType.Image ImageFileType.PNG) (FileType.Image ImageFileType.JPEG) p ∧
        ∀ q, EdgeSeq [(FileType.Image ImageFileType.PNG, FileType.Image ImageFileType.JPEG)]
            (FileType.Image ImageFileType.PNG) (FileType.Image ImageFileType.JPEG) q →
          p.length ≤ q.length) ∧
      (ConverterRegistry.find_conversion_path
          [((FileType.Image ImageFileType.PNG, FileType.Image ImageFileType.JPEG),
            (⟨fun _ _ s => (Except.ok (), s), FileType.Image ImageFileType.PNG,
              FileType.Image ImageFileType.JPEG⟩ : Converter Nat))]
          (FileType.Image ImageFileType.PNG) (FileType.Image ImageFileType.JPEG) = none ↔
        ¬ ∃ q, EdgeSeq [(FileType.Image ImageFileType.PNG, FileType.Image ImageFileType.JPEG)]
            (FileType.Image ImageFileType.PNG) (FileType.Image ImageFileType.JPEG) q)) :=
  ⟨by decide, find_conversion_path_correct
    [((FileType.Image ImageFileType.PNG, FileType.Image ImageFileType.JPEG),
      (⟨fun _ _ s => (Except.ok (), s), FileType.Image ImageFileType.PNG,
        FileType.Image ImageFileType.JPEG⟩ : Converter Nat))]
    (FileType.Image ImageFileType.PNG) (FileType.Image ImageFileType.JPEG) (by decide)⟩

theorem find_path_shape {σ : Type} {r : ConverterRegistry σ} {f t : FileType}
    {p : List FileType} (h : ConverterRegistry.find_conversion_path r f t = some p) :
    p.getLast? = some t ∧ ∀ x ∈ p.dropLast, x ≠ t := by
  by_cases hft : f = t
  · subst hft
    simp [ConverterRegistry.find_conversion_path] at h
    subst h
    simp
  · have hmain := @bfs_main (r.map Prod.fst) f t bfsFuel [f] [f] []
      (bfs_init (r.map Prod.fst) f t) (by simp [bfsFuel])
    have hfind : ConverterRegistry.find_conversion_path r f t =
        bfs (r.map Prod.fst) t bfsFuel [f] [f] [] := by
      simp [ConverterRegistry.find_conversion_path, hft]
    rw [hfind] at h
    obtain ⟨h1, h2, _⟩ := hmain.1 p h
    exact ⟨h1.getLast_eq, h2⟩

theorem hopList_chainOK (finalType : FileType) (output_path : FsPath) :
    ∀ (p : List FileType) (cur : FsPath), chainOK (hopList finalType output_path p cur) cur
  | [], _ => trivial
  | [_], _ => trivial
  | a :: b :: rest, cur => by
    refine ⟨rfl, ?_⟩
    exact hopList_chainOK finalType output_path (b :: rest)
      (hopOutput finalType output_path cur b)

theorem hopList_last_output (finalType : FileType) (output_path : FsPath) :
    ∀ (p : List FileType) (cur : FsPath) (h : Hop),
      p.getLast? = some finalType → (∀ x ∈ p.dropLast, x ≠ finalType) →
      (hopList finalType output_path p cur).getLast? = some h → h.output = output_path
  | [], cur, h => by
    intro _ _ hl
    simp [hopList] at hl
  | [a], cur, h => by
    intro _ _ hl
    simp [hopList] at hl
  | a :: b :: rest, cur, h => by
    intro hlast hdrop hl
    cases rest with
    | nil =>
      have hb : b = finalType := by simpa using hlast
      simp only [hopList, List.getLast?_singleton, Option.some.injEq] at hl
      rw [← hl]
      simp [hopOutput, hb]
    | cons c rest2 =>
      have hlast2 : (b :: c :: rest2).getLast? = some finalType := by
        rw [List.getLast?_cons_cons] at hlast
        exact hlast
      have hdrop2 : ∀ x ∈ (b :: c :: rest2).dropLast, x ≠ finalType := by
        intro x hx
        refine hdrop x ?_
        rw [List.dropLast_cons₂]
        exact List.mem_cons_of_mem _ hx
      refine hopList_last_output finalType output_path (b :: c :: rest2)
        (hopOutput finalType output_path cur b) h hlast2 hdrop2 ?_
      simp only [hopList] at hl ⊢
      rw [List.getLast?_cons_cons] at hl
      exact hl

theorem hopList_dropLast_temp (finalType : FileType) (output_path : FsPath) :
    ∀ (p : List FileType) (cur : FsPath),
      (∀ x ∈ p.dropLast, x ≠ finalType) →
      ∀ h ∈ (hopList finalType output_path p cur).dropLast,
        h.output = tempPathFor h.input h.tgt
  | [], cur => by
    intro _ h hh
    simp [hopList] at hh
  | [a], cur => by
    intro _ h hh
    simp [hopList] at hh
  | a :: b :: rest, cur => by
    intro hdrop h hh
    cases rest with
    | nil => simp [hopList] at hh
    | cons c rest2 =>
      simp only [hopList, List.dropLast_cons₂] at hh
      rcases List.mem_cons.mp hh with hh | hh
      · subst hh
        have hb : b ≠ finalType := by
          refine hdrop b ?_
          rw [List.dropLast_cons₂]
          simp
        simp [hopOutput, hb]
      · have hdrop2 : ∀ x ∈ (b :: c :: rest2).dropLast, x ≠ finalType := by
          intro x hx
          refine hdrop x ?_
          rw [List.dropLast_cons₂]
          exact List.mem_cons_of_mem _ hx
        exact hopList_dropLast_temp finalType output_path (b :: c :: rest2)
          (hopOutput finalType output_path cur b) hdrop2 h (by
            simpa [hopList] using hh)

/-- Claim C8: in a multi-hop execution the orchestrator runs exactly the hop sequence
derived from the discovered path: the hops chain (the first reads the source path and
each later hop reads the previous hop's output), the final hop writes the resolved
output path (the explicit target path, or the source path with the target's canonical
extension), and every non-final hop writes a temporary path derived from its own
input by replacing the extension with the intermediate target's canonical extension
and marking the file name with the "temp_" prefix. -/
theorem multi_hop_paths_spec {σ : Type} (b : FileConvertBuilder σ) (s : σ)
    (r0 : ConverterRegistry σ) (p : List FileType)
    (hreg : b.registry = some r0)
    (hf : b.from_.1 ≠ FileType.Unknown) (ht : b.to_.1 ≠ FileType.Unknown)
    (hdirect : lookupConv (b.custom_converters.foldl ConverterRegistry.register r0)
        (b.from_.1, b.to_.1) = none)
    (hfind : ConverterRegistry.find_conversion_path
        (b.custom_converters.foldl ConverterRegistry.register r0) b.from_.1 b.to_.1 = some p) :
    b.convert s =
      execHops (b.custom_converters.foldl ConverterRegistry.register r0)
        (hopList b.to_.1 (resolveOutputPath b) p b.from_.2) s ∧
    chainOK (hopList b.to_.1 (resolveOutputPath b) p b.from_.2) b.from_.2 ∧
    (∀ h, (hopList b.to_.1 (resolveOutputPath b) p b.from_.2).getLast? = some h →
      h.output = resolveOutputPath b) ∧
    (∀ h ∈ (hopList b.to_.1 (resolveOutputPath b) p b.from_.2).dropLast,
      h.output = tempPathFor h.input h.tgt) := by
  obtain ⟨hlast, hdrop⟩ := find_path_shape hfind
  refine ⟨?_, hopList_chainOK _ _ _ _,
    fun h hh => hopList_last_output _ _ p _ h hlast hdrop hh,
    hopList_dropLast_temp _ _ p _ hdrop⟩
  unfold FileConvertBuilder.convert
  simp only [hreg]
  simp [hf, ht, ConverterRegistry.can_convert, hdirect, hfind, runHops_eq_execHops]

/-- Witness for C8: a PNG-to-MP3 request with no direct edge, resolved via the
two-hop path PNG, JPEG, MP3. -/
theorem multi_hop_paths_spec_witness :
    FileConvertBuilder.convert
        (⟨(FileType.Image ImageFileType.PNG, ⟨[], "a.png"⟩),
          (FileType.Audio AudioFileType.MP3, none),
          some [((FileType.Image ImageFileType.PNG, FileType.Image ImageFileType.JPEG),
            (⟨fun _ _ s => (Except.ok (), s + 1), FileType.Image ImageFileType.PNG,
              FileType.Image ImageFileType.JPEG⟩ : Converter Nat)),
          ((FileType.Image ImageFileType.JPEG, FileType.Audio AudioFileType.MP3),
            (⟨fun _ _ s => (Except.ok (), s + 1), FileType.Image ImageFileType.JPEG,
              FileType.Audio AudioFileType.MP3⟩ : Converter Nat))], []⟩ : FileConvertBuilder Nat) 0 =
      execHops
        [((FileType.Image ImageFileType.PNG, FileType.Image ImageFileType.JPEG),
          (⟨fun _ _ s => (Except.ok (), s + 1), FileType.Image ImageFileType.PNG,
            FileType.Image ImageFileType.JPEG⟩ : Converter Nat)),
        ((FileType.Image ImageFileType.JPEG, FileType.Audio AudioFileType.MP3),
          (⟨fun _ _ s => (Except.ok (), s + 1), FileType.Image ImageFileType.JPEG,
            FileType.Audio AudioFileType.MP3⟩ : Converter Nat))]
        (hopList (FileType.Audio AudioFileType.MP3)
          (resolveOutputPath
            (⟨(FileType.Image ImageFileType.PNG, ⟨[], "a.png"⟩),
              (FileType.Audio AudioFileType.MP3, none),
              some [((FileType.Image ImageFileType.PNG, FileType.Image ImageFileType.JPEG),
                (⟨fun _ _ s => (Except.ok (), s + 1), FileType.Image ImageFileType.PNG,
                  FileType.Image ImageFileType.JPEG⟩ : Converter Nat)),
              ((FileType.Image ImageFileType.JPEG, FileType.Audio AudioFileType.MP3),
                (⟨fun _ _ s => (Except.ok (), s + 1), FileType.Image ImageFileType.JPEG,
                  FileType.Audio AudioFileType.MP3⟩ : Converter Nat))], []⟩ : FileConvertBuilder Nat))
          [FileType.Image ImageFileType.PNG, FileType.Image ImageFileType.JPEG,
            FileType.Audio AudioFileType.MP3] ⟨[], "a.png"⟩) 0 :=
  (multi_hop_paths_spec
    (⟨(FileType.Image ImageFileType.PNG, ⟨[], "a.png"⟩),
      (FileType.Audio AudioFileType.MP3, none),
      some [((FileType.Image ImageFileType.PNG, FileType.Image ImageFileType.JPEG),
        (⟨fun _ _ s => (Except.ok (), s + 1), FileType.Image ImageFileType.PNG,
          FileType.Image ImageFileType.JPEG⟩ : Converter Nat)),
      ((FileType.Image ImageFileType.JPEG, FileType.Audio AudioFileType.MP3),
        (⟨fun _ _ s => (Except.ok (), s + 1), FileType.Image ImageFileType.JPEG,
          FileType.Audio AudioFileType.MP3⟩ : Converter Nat))], []⟩ : FileConvertBuilder Nat) 0
    [((FileType.Image ImageFileType.PNG, FileType.Image ImageFileType.JPEG),
      (⟨fun _ _ s => (Except.ok (), s + 1), FileType.Image ImageFileType.PNG,
        FileType.Image ImageFileType.JPEG⟩ : Converter Nat)),
    ((FileType.Image ImageFileType.JPEG, FileType.Audio AudioFileType.MP3),
      (⟨fun _ _ s => (Except.ok (), s + 1), FileType.Image ImageFileType.JPEG,
        FileType.Audio AudioFileType.MP3⟩ : Converter Nat))]
    [FileType.Image ImageFileType.PNG, FileType.Image ImageFileType.JPEG,
      FileType.Audio AudioFileType.MP3]
    rfl (by decide) (by decide) rfl rfl).1
